import Mathlib

/-!
Verification of the cluster file-set index and block-pull scheduler of the
syncthing repository (package `files`, package `vc`, and
`cmd/syncthing/model_puller.go`) against its natural-language specification.

The Go code is shallowly embedded as executable Lean definitions:

* Go maps are association lists (`List (κ × α)`) built from the empty list;
  an overwrite removes the old binding and appends the new one.  Go map
  iteration order is unspecified and never observable in the properties
  proved here, so the list order stands in for one admissible iteration
  order.
* The `files` store of `Set` is keyed in Go by `key.String()`, which is
  injective in (Name, Version) (the version part printed by `%v` contains
  no colon, so the split at the last colon is unambiguous); the model
  therefore keys it by the `Key` value itself.
* Go's `[64]map[string]key` starts with nil maps; writing to a nil map
  panics, so an `Update` on a peer that was never `Replace`d panics in Go
  when given a nonempty list.  The model represents all 64 maps as
  (initially empty) lists; all concrete traces below perform a `Replace`
  for a peer before its first nonempty `Update`, where Go and the model
  agree.
* Wall-clock reads (`time.Now().UnixNano()` inside `Clock.Inc`) are made
  an explicit parameter `t`.
* Machine integers: `Version` entries are `int64` and are modelled as
  `Int` (no arithmetic here comes near 2^63); the `changes` counters are
  `uint64` and increments are taken mod 2^64; availability bitsets are
  `uint64` values modelled as `Nat` built from `1 <<< i` with `i ≤ 63`.
-/

set_option maxRecDepth 4096

namespace SyncSpec

/-- The four comparison outcomes of the `vc` package (`vc.Order`). -/
inductive Order where
  | Lesser
  | Equal
  | Greater
  | Conflicting
deriving DecidableEq, Repr

/-- The loop body of `Clock.CompareTo` from `src/vc/vc.go`: `r` is the
running result, updated per position; a position that disagrees with the
running result returns `Conflicting` immediately. -/
def compareToGo : Order → List Int → List Int → Order
  | r, c :: cs, o :: os =>
    if c < o ∧ (r = Order.Lesser ∨ r = Order.Equal) then compareToGo Order.Lesser cs os
    else if o < c ∧ (r = Order.Greater ∨ r = Order.Equal) then compareToGo Order.Greater cs os
    else if c ≠ o then Order.Conflicting
    else compareToGo r cs os
  | r, _, _ => r

/-- `Clock.CompareTo` from `src/vc/vc.go`.  Clocks of different lengths are
incomparable and panic in Go, modelled by `none`. -/
def CompareTo (c o : List Int) : Option Order :=
  if c.length = o.length then some (compareToGo Order.Equal c o) else none

/-- Modelled from the spec: the free function `vc.Compare` used by the
`files` package is not among the source files (only the method
`Clock.CompareTo` is).  It is modelled as the same pointwise comparison
with the shorter vector implicitly padded with zeroes, the standard
version-vector comparison the spec describes ("Comparison ... yields one of
{Lesser, Equal, Greater, Conflicting}: Equal iff all positions equal;
Lesser/Greater iff all unequal positions are strictly less/greater;
Conflicting if some positions are less and others greater").  The `files`
package compares against the zero value `key{}` (a nil version) when a name
is absent, so `Compare` must accept unequal lengths.
`compareRight` is the loop once the left operand is exhausted (missing left
positions read as 0). -/
def compareRight : Order → List Int → Order
  | r, [] => r
  | r, o :: os =>
    if 0 < o ∧ (r = Order.Lesser ∨ r = Order.Equal) then compareRight Order.Lesser os
    else if o < 0 ∧ (r = Order.Greater ∨ r = Order.Equal) then compareRight Order.Greater os
    else if o ≠ 0 then Order.Conflicting
    else compareRight r os

/-- See `Compare`: the padded comparison loop (the left operand exhausted
case is `compareRight`; a missing position reads as 0). -/
def compareGo : Order → List Int → List Int → Order
  | r, [], os => compareRight r os
  | r, c :: cs, os =>
    let o := os.headD 0
    if c < o ∧ (r = Order.Lesser ∨ r = Order.Equal) then compareGo Order.Lesser cs os.tail
    else if o < c ∧ (r = Order.Greater ∨ r = Order.Equal) then compareGo Order.Greater cs os.tail
    else if c ≠ o then Order.Conflicting
    else compareGo r cs os.tail

/-- Modelled from the spec: `vc.Compare` (see `compareGo`). -/
def Compare (a b : List Int) : Order :=
  compareGo Order.Equal a b

/-- `Clock.Inc` from `src/vc/vc.go` (and the free `vc.Inc` the `files`
package calls, which is not among the source files): the wall-clock value
`time.Now().UnixNano()` is the explicit parameter `t`.  An index outside
the clock panics in Go, modelled by `none`. -/
def Inc (t : Int) (i : Nat) (c : List Int) : Option (List Int) :=
  if h : i < c.length then
    some (if c.get ⟨i, h⟩ < t then c.set i t else c.set i (c.get ⟨i, h⟩ + 1))
  else none

/-- Modelled from the spec: `protocol.FlagDeleted` (the `protocol` package
is not among the source files).  The spec only requires a fixed nonzero bit
of the flags bit field marking tombstones. -/
def FlagDeleted : Nat := 4096

/-- `scanner.Block` as used by the puller: `(offset, size, hash)` with hash
a content digest (modelled as a list of bytes). -/
structure Block where
  offset : Int
  size : Int
  hash : List Nat
deriving DecidableEq, Repr

/-- `scanner.File` from `src/scanner/file.go`. -/
structure File where
  name : String
  flags : Nat
  modified : Int
  version : List Int
  size : Int
  blocks : List Block
  suppressed : Bool
  changed : Bool
deriving DecidableEq, Repr

/-- The Go zero value `scanner.File{}`. -/
def zeroFile : File :=
  { name := "", flags := 0, modified := 0, version := [], size := 0,
    blocks := [], suppressed := false, changed := false }

instance : Inhabited File := ⟨zeroFile⟩

/-- `key` from the `files` package: a (name, version) fingerprint. -/
structure Key where
  name : String
  version : List Int
deriving DecidableEq, Repr

/-- The Go zero value `key{}` (nil version). -/
def zeroKey : Key := { name := "", version := [] }

instance : Inhabited Key := ⟨zeroKey⟩

/-- `keyFor` from the `files` package. -/
def keyFor (f : File) : Key :=
  { name := f.name, version := f.version }

/-- `key.newerThan` from the `files` package: compares versions only. -/
def Key.newerThan (a b : Key) : Bool :=
  Compare a.version b.version = Order.Greater

/-- `key.equals` from the `files` package: compares versions only. -/
def Key.equalsK (a b : Key) : Bool :=
  Compare a.version b.version = Order.Equal

/-- `fileRecord` from the `files` package: a usage count and the record. -/
structure FileRecord where
  usage : Nat
  file : File
deriving DecidableEq, Repr

/-! ### Association lists standing in for Go maps -/

/-- Look a key up in an association list (Go map read; `none` is Go's
"not present", for which reads yield the zero value). -/
def lookupA {κ α : Type} [DecidableEq κ] : List (κ × α) → κ → Option α
  | [], _ => none
  | p :: ps, k => if p.1 = k then some p.2 else lookupA ps k

/-- Drop every binding of `k` (helper for `insertA` / Go `delete`). -/
def removeA {κ α : Type} [DecidableEq κ] : List (κ × α) → κ → List (κ × α)
  | [], _ => []
  | p :: ps, k => if p.1 = k then removeA ps k else p :: removeA ps k

/-- Go map write `m[k] = v`. -/
def insertA {κ α : Type} [DecidableEq κ] (m : List (κ × α)) (k : κ) (v : α) :
    List (κ × α) :=
  removeA m k ++ [(k, v)]

/-- Go `delete(m, k)`. -/
def eraseA {κ α : Type} [DecidableEq κ] (m : List (κ × α)) (k : κ) :
    List (κ × α) :=
  removeA m k

/-- Go map read with the zero value as default. -/
def getDA {κ α : Type} [DecidableEq κ] (m : List (κ × α)) (k : κ) (d : α) : α :=
  (lookupA m k).getD d

/-! ### The file set (`Set` from the `files` package) -/

/-- The state of a `files.Set`.  `remoteKey` and `changes` are the 64-slot
arrays; `files` is the block store keyed by fingerprint (see the module
comment on `key.String()` injectivity). -/
structure SetState where
  files : List (Key × FileRecord)
  remoteKey : Fin 64 → List (String × Key)
  changes : Fin 64 → Nat
  globalAvailability : List (String × Nat)
  globalKey : List (String × Key)

/-- `NewSet` from the `files` package: everything empty. -/
def initSet : SetState :=
  { files := [], remoteKey := fun _ => [], changes := fun _ => 0,
    globalAvailability := [], globalKey := [] }

/-- `m.changes[id]++` (a `uint64` increment). -/
def bumpChanges (id : Fin 64) (s : SetState) : SetState :=
  { s with changes := Function.update s.changes id ((s.changes id + 1) % 2 ^ 64) }

/-- The block-store step of `Set.update`: create the record with usage 1,
or keep the existing record and bump its usage. -/
def storeRecord (s : SetState) (fk : Key) (f : File) : SetState :=
  match lookupA s.files fk with
  | none => { s with files := insertA s.files fk { usage := 1, file := f } }
  | some br => { s with files := insertA s.files fk { br with usage := br.usage + 1 } }

/-- The non-skip part of `Set.update`'s loop body: store the fingerprint in
the peer map, bump or create the block store record, update the global
view. -/
def updateFileStore (cid : Fin 64) (s : SetState) (f : File) : SetState :=
  let n := f.name
  let fk := keyFor f
  let rk1 := Function.update s.remoteKey cid (insertA (s.remoteKey cid) n fk)
  let s2 := storeRecord { s with remoteKey := rk1 } fk f
  let gkOpt := lookupA s2.globalKey n
  let gk := gkOpt.getD zeroKey
  let av := getDA s2.globalAvailability n 0
  if gkOpt.isSome ∧ Key.equalsK fk gk then
    { s2 with globalAvailability := insertA s2.globalAvailability n (av ||| (1 <<< cid.val)) }
  else if Key.newerThan fk gk then
    { s2 with globalKey := insertA s2.globalKey n fk,
              globalAvailability := insertA s2.globalAvailability n (1 <<< cid.val) }
  else s2

/-- One iteration of the loop body of `Set.update` for one incoming file:
skip it when the peer already holds an Equal-comparing fingerprint. -/
def updateFile (cid : Fin 64) (s : SetState) (f : File) : SetState :=
  match lookupA (s.remoteKey cid) f.name with
  | some ck =>
    if Key.equalsK ck (keyFor f) then s else updateFileStore cid s f
  | none => updateFileStore cid s f

/-- `Set.update` from the `files` package (the unexported method). -/
def update (s : SetState) (cid : Fin 64) (fs : List File) : SetState :=
  fs.foldl (updateFile cid) s

/-- The usage-decrement step of `Set.replace` for one old fingerprint. -/
def decrementFile (s : SetState) (fk : Key) : SetState :=
  match lookupA s.files fk with
  | some br =>
    if br.usage = 1 then { s with files := eraseA s.files fk }
    else if 1 < br.usage then { s with files := insertA s.files fk { br with usage := br.usage - 1 } }
    else s
  | none => s

/-- The inner 64-peer scan of `Set.replace`'s global recomputation: find the
newest key for `n` and the bitset of peers holding it.  `nk` starts as the
zero key. -/
def scanPeers (s : SetState) (n : String) : Key × Nat :=
  (List.finRange 64).foldl
    (fun acc i =>
      match lookupA (s.remoteKey i) n with
      | some rk =>
        if Key.equalsK rk acc.1 then (acc.1, acc.2 ||| (1 <<< i.val))
        else if Key.newerThan rk acc.1 then (rk, 1 <<< i.val)
        else acc
      | none => acc)
    (zeroKey, 0)

/-- One name's step of `Set.replace`'s global recomputation. -/
def recomputeName (s : SetState) (n : String) : SetState :=
  let r := scanPeers s n
  if r.2 ≠ 0 then
    { s with globalKey := insertA s.globalKey n r.1,
             globalAvailability := insertA s.globalAvailability n r.2 }
  else
    { s with globalKey := eraseA s.globalKey n,
             globalAvailability := eraseA s.globalAvailability n }

/-- The first phase of `Set.replace`: decrement the usage of every
fingerprint in the peer's current map. -/
def decrementAll (s : SetState) (cid : Fin 64) : SetState :=
  (s.remoteKey cid).foldl (fun s p => decrementFile s p.2) s

/-- The second phase of `Set.replace`: clear the peer's map. -/
def clearPeer (s : SetState) (cid : Fin 64) : SetState :=
  { s with remoteKey := Function.update s.remoteKey cid [] }

/-- The third phase of `Set.replace`: recompute the global view over the
names currently in it. -/
def recomputeGlobal (s : SetState) : SetState :=
  s.globalKey.foldl (fun s p => recomputeName s p.1) s

/-- `Set.replace` from the `files` package (the unexported method):
decrement old usages, clear the peer's map, recompute the global view over
the names it contained, then `update` with the new list. -/
def replace (s : SetState) (cid : Fin 64) (fs : List File) : SetState :=
  update (recomputeGlobal (clearPeer (decrementAll s cid) cid)) cid fs

/-- `Set.equals` from the `files` package: does `fs` match the peer's
current map (same size, and every listed file's version compares Equal to
the stored one, the zero key standing in for absent names)? -/
def goEquals (s : SetState) (id : Fin 64) (fs : List File) : Bool :=
  (s.remoteKey id).length = fs.length &&
    fs.all fun f => Key.equalsK (getDA (s.remoteKey id) f.name zeroKey) (keyFor f)

/-- `Set.Replace` from the `files` package. -/
def Replace (id : Fin 64) (fs : List File) (s : SetState) : SetState :=
  if fs.length = 0 || !goEquals s id fs then replace (bumpChanges id s) id fs
  else s

/-- `Set.Update` from the `files` package: upsert, then bump the change
counter unconditionally. -/
def Update (id : Fin 64) (fs : List File) (s : SetState) : SetState :=
  bumpChanges id (update s id fs)

/-- The tombstone synthesized by `Set.ReplaceWithDelete` for one
previously-present name: the stored record with Deleted flags, no blocks,
zero size and the version incremented at index `id` (Go mutates the record
in place through `vc.Inc`; the value computed here is the same). -/
def tombstoneOf (s : SetState) (t : Int) (id : Fin 64) (ck : Key) : Option File :=
  let cf := ((lookupA s.files ck).map FileRecord.file).getD zeroFile
  (Inc t id.val cf.version).map fun v =>
    { cf with flags := FlagDeleted, blocks := [], size := 0, version := v }

/-- The tombstone-collection loop of `Set.ReplaceWithDelete`: walk the local
map, and for every entry whose key's name is not among the new files append
a tombstone, in map order.  A failing `vc.Inc` (version too short) panics in
Go, modelled by `none`. -/
def buildTombs (s : SetState) (t : Int) (id : Fin 64) (nf : List String) :
    List (String × Key) → Option (List File)
  | [] => some []
  | p :: ps =>
    if p.2.name ∈ nf then buildTombs s t id nf ps
    else
      match tombstoneOf s t id p.2, buildTombs s t id nf ps with
      | some tf, some ts => some (tf :: ts)
      | _, _ => none

/-- `Set.ReplaceWithDelete` from the `files` package.  The loop always walks
`m.remoteKey[cid.LocalID]` (peer 0) while incrementing at index `id`; the
claims only exercise `id = 0`.  Go's in-place `vc.Inc` also rewrites, via
slice aliasing, the version stored in the local map entry and in the block
store record the tombstone was copied from; that residue only shifts which
usage counters the subsequent `replace` decrements and is not modelled — no
property proved below about `ReplaceWithDelete` depends on it (see the
hypotheses of the corresponding theorems, which pin the affected lookups on
both readings). -/
def ReplaceWithDelete (id : Fin 64) (t : Int) (fs : List File) (s : SetState) :
    Option SetState :=
  if fs.length = 0 || !goEquals s id fs then
    (buildTombs s t id (fs.map File.name) (s.remoteKey 0)).map fun ts =>
      replace (bumpChanges id s) id (fs ++ ts)
  else some s

/-- `Set.Need` from the `files` package: the global records strictly newer
than the peer's entry (the zero key standing in for absent names). -/
def Need (id : Fin 64) (s : SetState) : List File :=
  s.globalKey.filterMap fun p =>
    if Key.newerThan p.2 (getDA (s.remoteKey id) p.1 zeroKey) then
      some (((lookupA s.files p.2).map FileRecord.file).getD zeroFile)
    else none

/-- `Set.Changes` from the `files` package. -/
def Changes (id : Fin 64) (s : SetState) : Nat :=
  s.changes id

/-- `Set.Availability` from the `files` package (zero if absent). -/
def Availability (n : String) (s : SetState) : Nat :=
  getDA s.globalAvailability n 0

/-! ### The pull scheduler (`cmd/syncthing/model_puller.go`)

The puller's filesystem and network effects are inputs of the model: the
outcome of `WriteAt`, of `os.Open` + `scanner.Blocks` on the temp file, and
of `os.Rename` arrive as an `IOOutcome`, and the actions the puller takes
(removing the temp file, renaming it, issuing a request) are reported in
the result so they can be stated about. -/

/-- `openFile` from `model_puller.go`. -/
structure OpenFile where
  filepath : String
  temp : String
  availability : Nat
  err : Option String
  outstanding : Int
  done : Bool
deriving DecidableEq, Repr

/-- The Go zero value `openFile{}`. -/
def zeroOpenFile : OpenFile :=
  { filepath := "", temp := "", availability := 0, err := none,
    outstanding := 0, done := false }

instance : Inhabited OpenFile := ⟨zeroOpenFile⟩

/-- `requestResult` from `model_puller.go` (`data` is represented only by
the write outcome it produces, see `IOOutcome.writeErr`). -/
structure RRes where
  node : String
  file : File
  offset : Int
  err : Option String
deriving DecidableEq, Repr

/-- Outcomes of the filesystem calls `handleRequestResult` makes:
the error of `of.file.WriteAt`, whether `os.Open(of.temp)` fails, the
hashes `scanner.Blocks` computes over the temp file, and whether
`os.Rename` succeeds. -/
structure IOOutcome where
  writeErr : Option String
  openFails : Bool
  hashed : List (List Nat)
  renameOk : Bool
deriving DecidableEq, Repr

/-- The externally visible completion actions of `handleRequestResult`:
was `os.Remove(of.temp)` called, and was the temp file renamed onto the
destination. -/
structure CompEv where
  tempRemoved : Bool
  renamed : Bool
deriving DecidableEq, Repr

/-- The puller state the modelled handlers touch: the per-node activity
map `oustandingPerNode`, the open-file table, the number of free request
slots buffered in `requestSlots`, and the file set `model.fs`. -/
structure PullerState where
  activity : List (String × Int)
  openFiles : List (String × OpenFile)
  slots : Nat
  fs : SetState

/-- `activityMap.decrease`. -/
def decreaseA (m : List (String × Int)) (node : String) : List (String × Int) :=
  insertA m node (getDA m node 0 - 1)

/-- The state after `handleRequestResult` wrote the block and found the
file complete: open-file entry updated then dropped from the table, the
node's outstanding count already decremented. -/
def completionSt (io : IOOutcome) (res : RRes) (st : PullerState) (of0 : OpenFile) :
    PullerState :=
  { st with activity := decreaseA st.activity res.node,
            openFiles := eraseA (insertA st.openFiles res.file.name
              { of0 with err := io.writeErr, outstanding := of0.outstanding - 1 })
              res.file.name }

/-- `puller.handleRequestResult` from `model_puller.go`.  Note that
`res.err` is never read: the sticky error is overwritten with the `WriteAt`
outcome only.  (The Go code interleaves the activity decrement and the two
open-file table writes with the rest; the updates commute, so they are
grouped here.) -/
def handleRequestResult (io : IOOutcome) (res : RRes) (st : PullerState) :
    PullerState × CompEv :=
  match lookupA st.openFiles res.file.name with
  | none => ({ st with activity := decreaseA st.activity res.node }, ⟨false, false⟩)
  | some of0 =>
    if of0.err ≠ none then
      ({ st with activity := decreaseA st.activity res.node }, ⟨false, false⟩)
    else if ({ of0 with err := io.writeErr, outstanding := of0.outstanding - 1 } : OpenFile).done ∧
        ({ of0 with err := io.writeErr, outstanding := of0.outstanding - 1 } : OpenFile).outstanding = 0 then
      if io.openFails then (completionSt io res st of0, ⟨true, false⟩)
      else if io.hashed.length ≠ res.file.blocks.length then (completionSt io res st of0, ⟨true, false⟩)
      else if (io.hashed.zip res.file.blocks).any (fun p => p.1 ≠ p.2.hash) then
        (completionSt io res st of0, ⟨true, false⟩)
      else if io.renameOk then
        ({ completionSt io res st of0 with
            fs := Update 0 [res.file] (completionSt io res st of0).fs }, ⟨true, true⟩)
      else (completionSt io res st of0, ⟨true, false⟩)
    else
      ({ st with activity := decreaseA st.activity res.node,
                 openFiles := insertA st.openFiles res.file.name
                   { of0 with err := io.writeErr, outstanding := of0.outstanding - 1 } },
        ⟨false, false⟩)

/-- The `case res := <-p.requestResults` arm of `puller.run`: put the
request slot back, then run the handler. -/
def onRequestResult (io : IOOutcome) (res : RRes) (st : PullerState) :
    PullerState × CompEv :=
  handleRequestResult io res { st with slots := st.slots + 1 }

/-- Modelled from the spec: the `cid` package (`cid.Map`) is not among the
source files.  Its `Names()` iteration paired with `Get` is modelled as a
list of (node id, connection index) pairs; `cid.LocalID` is 0 ("Peer id 0
is reserved for the local node"). -/
abbrev CidMap := List (String × Fin 64)

/-- `activityMap.leastBusyNode` from `model_puller.go`: pick the connected
non-local node with the lowest outstanding count among those whose
availability bit is set; the chosen node's counter (the empty-string key's
counter when nobody qualifies) is incremented before returning. -/
def leastBusyNode (m : List (String × Int)) (availability : Nat) (cm : CidMap) :
    String × List (String × Int) :=
  let sel := cm.foldl
    (fun acc p =>
      if p.2 = (0 : Fin 64) then acc
      else if availability &&& (1 <<< p.2.val) ≠ 0 ∧ getDA m p.1 0 < acc.1 then
        (getDA m p.1 0, p.1)
      else acc)
    ((2 ^ 31 - 1 : Int), "")
  (sel.2, insertA m sel.2 (getDA m sel.2 0 + 1))

/-- `bqBlock` from the block queue, as consumed by `handleRequestBlock`. -/
structure BqBlock where
  file : File
  offset : Int
  size : Int
  last : Bool
deriving DecidableEq, Repr

/-- A remote block request issued by `handleRequestBlock`'s goroutine. -/
structure ReqMsg where
  node : String
  name : String
  offset : Int
  size : Int
deriving DecidableEq, Repr

/-- `puller.handleRequestBlock` from `model_puller.go`: choose a peer; when
none is available, put the slot back and return without touching the
open-file table; otherwise count the request as outstanding and issue it. -/
def handleRequestBlock (cm : CidMap) (b : BqBlock) (st : PullerState) :
    PullerState × List ReqMsg :=
  let f := b.file
  let of0 := getDA st.openFiles f.name zeroOpenFile
  let r := leastBusyNode st.activity of0.availability cm
  if r.1 = "" then
    ({ st with activity := r.2, slots := st.slots + 1 }, [])
  else
    let of1 := { of0 with outstanding := of0.outstanding + 1 }
    ({ st with activity := r.2, openFiles := insertA st.openFiles f.name of1 },
      [⟨r.1, f.name, b.offset, b.size⟩])

/-! ### Concrete traces used by the claim theorems -/

/-- A file with a name and version and zeroed remaining fields. -/
def mkF (n : String) (v : List Int) : File :=
  { zeroFile with name := n, version := v }

/-- Trace: peer 1 publishes x@[0,1] via Replace, then Updates it with the
conflicting x@[1,0]. -/
def sStale : SetState :=
  Update 1 [mkF "x" [1, 0]] (Replace 1 [mkF "x" [0, 1]] initSet)

/-- Trace: peer 1 publishes x@[1] via Replace, then Updates it to x@[2]. -/
def sLeak : SetState :=
  Update 1 [mkF "x" [2]] (Replace 1 [mkF "x" [1]] initSet)

/-- Trace for the conflict scenario S4: local inserts x@[1,0,0], then peer
A (= 1) inserts the conflicting x@[0,1,0]. -/
def sS4 : SetState :=
  Replace 1 [mkF "x" [0, 1, 0]] (Replace 0 [mkF "x" [1, 0, 0]] initSet)

/-- Trace: peer 2 publishes x@[1], peer 1 publishes x@[0,0] (a version that
compares Equal to the zero key), then peer 2 resets; the recomputation
elects the zero key as the global fingerprint for x. -/
def sZeroGlobal : SetState :=
  Replace 2 [] (Replace 1 [mkF "x" [0, 0]] (Replace 2 [mkF "x" [1]] initSet))

/-- A block for the tombstone-collision trace. -/
def blkB : Block := { offset := 0, size := 5, hash := [1, 2, 3] }

/-- Peer 1's record b@[2] (not deleted, has blocks). -/
def fB2 : File := { zeroFile with name := "b", version := [2], blocks := [blkB], size := 5 }

/-- Peer 2's record with the same fingerprint b@[2]. -/
def fB2q : File :=
  { zeroFile with name := "b", version := [2], blocks := [blkB], size := 5, modified := 7 }

/-- Trace: peers 1 and 2 both hold b@[2]; local holds b@[1]; then the local
map is replaced with the empty list so that b must be tombstoned (the
tombstone's version, [1] incremented at index 0 with wall clock 0, is [2],
colliding with the peers' fingerprint). -/
def sCollide : SetState :=
  Replace 0 [mkF "b" [1]] (Replace 2 [fB2q] (Replace 1 [fB2] initSet))

/-- The scenario-S3 state: local holds a@[1] and b@[1]. -/
def sS3 : SetState :=
  Replace 0 [mkF "a" [1], mkF "b" [1]] initSet

end SyncSpec

namespace SyncSpec

/-! ### C1 -/

/-- C1: the claimed invariant — every set availability bit points at a peer
map entry equal to the global fingerprint — is violated by the code.  After
`Replace(1, [x@[0,1]])` and `Update(1, [x@[1,0]])` (a Conflicting
overwrite), the global entry is still x@[0,1] with availability bit 1 set,
but peer 1's map now holds x@[1,0]. -/
theorem update_keeps_stale_availability_bit :
    Availability "x" sStale = 2 ∧
    lookupA sStale.globalKey "x" = some ⟨"x", [0, 1]⟩ ∧
    lookupA (sStale.remoteKey 1) "x" = some ⟨"x", [1, 0]⟩ ∧
    (⟨"x", [1, 0]⟩ : Key) ≠ ⟨"x", [0, 1]⟩ := by
  decide

/-! ### C5 -/

/-- C5: the claimed usage-count invariant is violated by the code.  After
`Replace(1, [x@[1]])` and `Update(1, [x@[2]])`, the overwritten fingerprint
x@[1] keeps usage 1 although no peer map and not the global view reference
it (the claim demands eviction at zero references), and x@[2] has usage 1
although peer 1's map and the global view both reference it (the claim
demands a count of 2). -/
theorem update_overwrite_leaks_usage :
    (lookupA sLeak.files ⟨"x", [1]⟩).map FileRecord.usage = some 1 ∧
    (∀ i : Fin 64, lookupA (sLeak.remoteKey i) "x" ≠ some ⟨"x", [1]⟩) ∧
    lookupA sLeak.globalKey "x" = some ⟨"x", [2]⟩ ∧
    (lookupA sLeak.files ⟨"x", [2]⟩).map FileRecord.usage = some 1 ∧
    lookupA (sLeak.remoteKey 1) "x" = some ⟨"x", [2]⟩ := by
  decide

/-! ### C2 -/

/-- Does the stored map hold, under `f.name`, a fingerprint whose version
compares Equal to `f`'s? -/
def matchesAt (m : List (String × Key)) (f : File) : Bool :=
  ((lookupA m f.name).map fun k => Key.equalsK k (keyFor f)).getD false

/-- `fs` denotes exactly the mapping `m`: same number of entries, and every
listed file is present with an Equal-comparing fingerprint. -/
abbrev denotes (fs : List File) (m : List (String × Key)) : Prop :=
  m.length = fs.length ∧ ∀ f ∈ fs, matchesAt m f = true

theorem updateFile_skips_matching (p : Fin 64) (s : SetState) (f : File)
    (h : matchesAt (s.remoteKey p) f = true) : updateFile p s f = s := by
  unfold matchesAt at h
  unfold updateFile
  cases hm : lookupA (s.remoteKey p) f.name with
  | none => rw [hm] at h; exact absurd h (by simp)
  | some ck =>
    rw [hm] at h
    simp at h
    simp [h]

theorem update_skips_matching (p : Fin 64) :
    ∀ (fs : List File) (s : SetState),
      (∀ f ∈ fs, matchesAt (s.remoteKey p) f = true) → update s p fs = s := by
  intro fs
  induction fs with
  | nil => intro s _; rfl
  | cons f rest ih =>
    intro s h
    have hf := h f (List.mem_cons_self _ _)
    have hstep : updateFile p s f = s := updateFile_skips_matching p s f hf
    show List.foldl (updateFile p) (updateFile p s f) rest = s
    rw [hstep]
    exact ih s (fun g hg => h g (List.mem_cons_of_mem _ hg))

theorem goEquals_of_denotes (s : SetState) (p : Fin 64) (fs : List File)
    (h : denotes fs (s.remoteKey p)) : goEquals s p fs = true := by
  obtain ⟨hlen, hall⟩ := h
  unfold goEquals
  refine (Bool.and_eq_true _ _).mpr ⟨by simpa using hlen, ?_⟩
  rw [List.all_eq_true]
  intro f hf
  have := hall f hf
  unfold matchesAt at this
  cases hm : lookupA (s.remoteKey p) f.name with
  | none => rw [hm] at this; exact absurd this (by simp)
  | some ck => rw [hm] at this; simpa [getDA, hm] using this

/-- C2 (amended): with `fs` denoting exactly peer `p`'s current mapping,
`Replace(p, fs)` with nonempty `fs` is a complete no-op (state and change
counter untouched), while `Update(p, fs)` leaves every map unchanged but
still increments the change counter — `Update` bumps `changes[p]`
unconditionally, so `Changes(p)` is NOT unchanged there. -/
theorem identical_mapping_replace_noop_update_bumps (s : SetState) (p : Fin 64)
    (fs : List File) (h1 : fs ≠ []) (h2 : denotes fs (s.remoteKey p)) :
    Replace p fs s = s ∧
    Update p fs s = bumpChanges p s ∧
    Changes p (Update p fs s) = (Changes p s + 1) % 2 ^ 64 := by
  have heq : goEquals s p fs = true := goEquals_of_denotes s p fs h2
  have hup : update s p fs = s := update_skips_matching p fs s h2.2
  have hlen : fs.length ≠ 0 := by
    intro hc; exact h1 (List.length_eq_zero.mp hc)
  refine ⟨?_, ?_, ?_⟩
  · unfold Replace
    simp [hlen, heq]
  · unfold Update
    rw [hup]
  · unfold Update Changes
    rw [hup]
    unfold bumpChanges
    simp

/-- C2 counterexample: on a fresh set, `Update(0, [])` passes a list that
denotes exactly peer 0's (empty) current mapping, yet `Changes(0)` goes
from 0 to 1 — the claim says it stays unchanged. -/
theorem update_empty_identical_bumps_counter :
    initSet.remoteKey 0 = [] ∧
    Changes 0 initSet = 0 ∧
    Changes 0 (Update 0 [] initSet) = 1 := by
  decide

/-- C2 witness state: local holds a@[1]. -/
def sOneA : SetState := Replace 0 [mkF "a" [1]] initSet

/-- Witness for the amended C2 at a concrete state. -/
theorem identical_mapping_replace_noop_update_bumps_witness :
    ([mkF "a" [1]] ≠ ([] : List File) ∧ denotes [mkF "a" [1]] (sOneA.remoteKey 0)) ∧
    (Replace 0 [mkF "a" [1]] sOneA = sOneA ∧
     Update 0 [mkF "a" [1]] sOneA = bumpChanges 0 sOneA ∧
     Changes 0 (Update 0 [mkF "a" [1]] sOneA) = (Changes 0 sOneA + 1) % 2 ^ 64) :=
  ⟨⟨by decide, by decide⟩,
   identical_mapping_replace_noop_update_bumps sOneA 0 [mkF "a" [1]] (by decide) (by decide)⟩

/-! ### C3 -/

/-- C3 counterexample: scenario S4 run on the code.  Local inserts
x@[1,0,0], peer A (= 1) then inserts the Conflicting x@[0,1,0]; the global
view keeps the EARLIER record x@[1,0,0] with availability 0b001 — not, as
claimed, the later-processed x@[0,1,0] with availability 0b010. -/
theorem conflict_keeps_earlier_winner :
    Compare [1, 0, 0] [0, 1, 0] = Order.Conflicting ∧
    lookupA sS4.globalKey "x" = some ⟨"x", [1, 0, 0]⟩ ∧
    Availability "x" sS4 = 1 ∧
    ¬(lookupA sS4.globalKey "x" = some ⟨"x", [0, 1, 0]⟩ ∧ Availability "x" sS4 = 2) := by
  decide

theorem storeRecord_globalKey (s : SetState) (fk : Key) (f : File) :
    (storeRecord s fk f).globalKey = s.globalKey := by
  unfold storeRecord
  cases lookupA s.files fk <;> rfl

theorem storeRecord_globalAvailability (s : SetState) (fk : Key) (f : File) :
    (storeRecord s fk f).globalAvailability = s.globalAvailability := by
  unfold storeRecord
  cases lookupA s.files fk <;> rfl

theorem updateFileStore_conflicting_global (p : Fin 64) (s : SetState)
    (f : File) (gk : Key)
    (hg : lookupA s.globalKey f.name = some gk)
    (hc : Compare f.version gk.version = Order.Conflicting) :
    (updateFileStore p s f).globalKey = s.globalKey ∧
    (updateFileStore p s f).globalAvailability = s.globalAvailability := by
  have h1 : Key.equalsK (keyFor f) gk = false := by
    simp [Key.equalsK, keyFor, hc]
  have h2 : Key.newerThan (keyFor f) gk = false := by
    simp [Key.newerThan, keyFor, hc]
  unfold updateFileStore
  simp [storeRecord_globalKey, storeRecord_globalAvailability, hg, h1, h2]

/-- C3 (amended): an insertion whose version Conflicts with the current
global entry for its name leaves the global view (winner and availability)
unchanged — the earlier-processed record stays the winner. -/
theorem update_conflicting_leaves_global_unchanged (s : SetState) (p : Fin 64)
    (f : File) (gk : Key)
    (hg : lookupA s.globalKey f.name = some gk)
    (hc : Compare f.version gk.version = Order.Conflicting) :
    (Update p [f] s).globalKey = s.globalKey ∧
    (Update p [f] s).globalAvailability = s.globalAvailability := by
  have hstep : Update p [f] s = bumpChanges p (updateFile p s f) := rfl
  rw [hstep]
  have hbk : ∀ s' : SetState, (bumpChanges p s').globalKey = s'.globalKey := by
    intro s'; rfl
  have hba : ∀ s' : SetState, (bumpChanges p s').globalAvailability = s'.globalAvailability := by
    intro s'; rfl
  rw [hbk, hba]
  unfold updateFile
  cases hm : lookupA (s.remoteKey p) f.name with
  | some ck =>
    by_cases he : Key.equalsK ck (keyFor f) = true
    · simp [he]
    · rw [Bool.not_eq_true] at he
      simp only [he, Bool.false_eq_true, if_false]
      exact updateFileStore_conflicting_global p s f gk hg hc
  | none =>
    exact updateFileStore_conflicting_global p s f gk hg hc

/-- The S4 state before peer A's conflicting insert. -/
def sS4pre : SetState := Replace 0 [mkF "x" [1, 0, 0]] initSet

/-- Witness for the amended C3: peer A's conflicting x@[0,1,0] over the
global x@[1,0,0]. -/
theorem update_conflicting_leaves_global_unchanged_witness :
    (lookupA sS4pre.globalKey "x" = some ⟨"x", [1, 0, 0]⟩ ∧
     Compare [0, 1, 0] [1, 0, 0] = Order.Conflicting) ∧
    ((Update 1 [mkF "x" [0, 1, 0]] sS4pre).globalKey = sS4pre.globalKey ∧
     (Update 1 [mkF "x" [0, 1, 0]] sS4pre).globalAvailability = sS4pre.globalAvailability) :=
  ⟨⟨by decide, by decide⟩,
   update_conflicting_leaves_global_unchanged sS4pre 1 (mkF "x" [0, 1, 0])
     ⟨"x", [1, 0, 0]⟩ (by decide) (by decide)⟩

/-! ### C4 -/

/-- C4 counterexample: a reachable state whose global view holds, for name
x, the zero fingerprint (peer 2 published x@[1], peer 1 published x@[0,0]
— which compares Equal to the zero key — then peer 2 reset, so the
recomputation elected the zero key).  Name x is absent from peer 0's map,
so per the claim its global record must be in `Need(0)`; the code returns
the empty list. -/
theorem need_excludes_zero_fingerprint_entry :
    lookupA sZeroGlobal.globalKey "x" = some zeroKey ∧
    lookupA (sZeroGlobal.remoteKey 0) "x" = none ∧
    Need 0 sZeroGlobal = [] := by
  decide

/-- C4 (amended): `Need(p)` consists of exactly the block-store records of
the global-view entries whose fingerprint compares Greater than peer p's
entry for the name, where an absent entry is compared as the zero version
vector (so inclusion for an absent name requires the global fingerprint to
be strictly newer than the zero vector, which is not guaranteed). -/
theorem need_characterization (id : Fin 64) (s : SetState) (f : File) :
    f ∈ Need id s ↔
      ∃ n gk, (n, gk) ∈ s.globalKey ∧
        Key.newerThan gk (getDA (s.remoteKey id) n zeroKey) = true ∧
        f = ((lookupA s.files gk).map FileRecord.file).getD zeroFile := by
  unfold Need
  rw [List.mem_filterMap]
  constructor
  · rintro ⟨⟨n, gk⟩, hmem, hif⟩
    by_cases h : Key.newerThan gk (getDA (s.remoteKey id) n zeroKey) = true
    · rw [if_pos h] at hif
      exact ⟨n, gk, hmem, h, (Option.some.inj hif).symm⟩
    · rw [if_neg h] at hif
      exact absurd hif (by simp)
  · rintro ⟨n, gk, hmem, h, hf⟩
    exact ⟨(n, gk), hmem, by rw [if_pos h, hf]⟩

/-! ### C6 -/

/-- Is some position of `a` strictly below the matching position of `b`
(positions beyond the shorter list ignored, as in `CompareTo`'s loop)? -/
def hasLt : List Int → List Int → Bool
  | a :: as, b :: bs => decide (a < b) || hasLt as bs
  | _, _ => false

/-- Is some position of `a` strictly above the matching position of `b`? -/
def hasGt : List Int → List Int → Bool
  | a :: as, b :: bs => decide (b < a) || hasGt as bs
  | _, _ => false

theorem compareToGo_lesser : ∀ (a b : List Int),
    compareToGo Order.Lesser a b =
      if hasGt a b then Order.Conflicting else Order.Lesser := by
  intro a
  induction a with
  | nil => intro b; cases b <;> simp [compareToGo, hasGt]
  | cons c cs ih =>
    intro b
    cases b with
    | nil => simp [compareToGo, hasGt]
    | cons o os =>
      rcases lt_trichotomy c o with hlt | heq | hgt
      · have h1 : ¬ o < c := lt_asymm hlt
        simp [compareToGo, hasGt, hlt, h1, ih]
      · subst heq
        simp [compareToGo, hasGt, lt_irrefl, ih]
      · have h1 : ¬ c < o := lt_asymm hgt
        have hne : c ≠ o := ne_of_gt hgt
        simp [compareToGo, hasGt, h1, hgt, hne]

theorem compareToGo_greater : ∀ (a b : List Int),
    compareToGo Order.Greater a b =
      if hasLt a b then Order.Conflicting else Order.Greater := by
  intro a
  induction a with
  | nil => intro b; cases b <;> simp [compareToGo, hasLt]
  | cons c cs ih =>
    intro b
    cases b with
    | nil => simp [compareToGo, hasLt]
    | cons o os =>
      rcases lt_trichotomy c o with hlt | heq | hgt
      · have h1 : ¬ o < c := lt_asymm hlt
        have hne : c ≠ o := ne_of_lt hlt
        simp [compareToGo, hasLt, hlt, h1, hne]
      · subst heq
        simp [compareToGo, hasLt, lt_irrefl, ih]
      · have h1 : ¬ c < o := lt_asymm hgt
        simp [compareToGo, hasLt, h1, hgt, ih]

theorem compareToGo_equal : ∀ (a b : List Int),
    compareToGo Order.Equal a b =
      if hasLt a b then (if hasGt a b then Order.Conflicting else Order.Lesser)
      else if hasGt a b then Order.Greater else Order.Equal := by
  intro a
  induction a with
  | nil => intro b; cases b <;> simp [compareToGo, hasLt, hasGt]
  | cons c cs ih =>
    intro b
    cases b with
    | nil => simp [compareToGo, hasLt, hasGt]
    | cons o os =>
      rcases lt_trichotomy c o with hlt | heq | hgt
      · have h1 : ¬ o < c := lt_asymm hlt
        simp [compareToGo, hasLt, hasGt, hlt, h1, compareToGo_lesser]
      · subst heq
        simp [compareToGo, hasLt, hasGt, lt_irrefl, ih]
      · have h1 : ¬ c < o := lt_asymm hgt
        have hne : c ≠ o := ne_of_gt hgt
        simp [compareToGo, hasLt, hasGt, h1, hgt, hne, compareToGo_greater]

theorem hasLt_iff : ∀ (a b : List Int), a.length = b.length →
    (hasLt a b = true ↔ ∃ i, i < a.length ∧ a.getD i 0 < b.getD i 0) := by
  intro a
  induction a with
  | nil =>
    intro b h
    simp [hasLt]
  | cons c cs ih =>
    intro b h
    cases b with
    | nil => exact absurd h (by simp)
    | cons o os =>
      have hlen : cs.length = os.length := by simpa using h
      constructor
      · intro hl
        have hl' : c < o ∨ hasLt cs os = true := by simpa [hasLt] using hl
        rcases hl' with hco | htail
        · exact ⟨0, by simp, by simpa using hco⟩
        · obtain ⟨i, hi, hlt⟩ := (ih os hlen).mp htail
          exact ⟨i + 1, by simpa using hi, by simpa using hlt⟩
      · rintro ⟨i, hi, hlt⟩
        cases i with
        | zero =>
          simp only [List.getD_cons_zero] at hlt
          simp [hasLt, hlt]
        | succ n =>
          have hn : n < cs.length := by simpa using hi
          have : hasLt cs os = true :=
            (ih os hlen).mpr ⟨n, hn, by simpa using hlt⟩
          simp [hasLt, this]

theorem hasGt_iff : ∀ (a b : List Int), a.length = b.length →
    (hasGt a b = true ↔ ∃ i, i < a.length ∧ b.getD i 0 < a.getD i 0) := by
  intro a
  induction a with
  | nil =>
    intro b h
    simp [hasGt]
  | cons c cs ih =>
    intro b h
    cases b with
    | nil => exact absurd h (by simp)
    | cons o os =>
      have hlen : cs.length = os.length := by simpa using h
      constructor
      · intro hl
        have hl' : o < c ∨ hasGt cs os = true := by simpa [hasGt] using hl
        rcases hl' with hco | htail
        · exact ⟨0, by simp, by simpa using hco⟩
        · obtain ⟨i, hi, hlt⟩ := (ih os hlen).mp htail
          exact ⟨i + 1, by simpa using hi, by simpa using hlt⟩
      · rintro ⟨i, hi, hlt⟩
        cases i with
        | zero =>
          simp only [List.getD_cons_zero] at hlt
          simp [hasGt, hlt]
        | succ n =>
          have hn : n < cs.length := by simpa using hi
          have : hasGt cs os = true :=
            (ih os hlen).mpr ⟨n, hn, by simpa using hlt⟩
          simp [hasGt, this]

theorem pointwise_iff_no_ltgt (a b : List Int) (h : a.length = b.length) :
    (∀ i, i < a.length → a.getD i 0 = b.getD i 0) ↔
      (hasLt a b = false ∧ hasGt a b = false) := by
  constructor
  · intro hp
    constructor
    · cases hL : hasLt a b with
      | false => rfl
      | true =>
        obtain ⟨i, hi, hlt⟩ := (hasLt_iff a b h).mp hL
        exact absurd (hp i hi) (ne_of_lt hlt)
    · cases hG : hasGt a b with
      | false => rfl
      | true =>
        obtain ⟨i, hi, hlt⟩ := (hasGt_iff a b h).mp hG
        exact absurd (hp i hi) (ne_of_gt hlt)
  · rintro ⟨hL, hG⟩ i hi
    by_contra hne
    rcases lt_or_gt_of_ne hne with hlt | hgt
    · have : hasLt a b = true := (hasLt_iff a b h).mpr ⟨i, hi, hlt⟩
      rw [this] at hL; exact absurd hL (by simp)
    · have : hasGt a b = true := (hasGt_iff a b h).mpr ⟨i, hi, hgt⟩
      rw [this] at hG; exact absurd hG (by simp)

/-- C6: for equal-length clocks, `CompareTo` returns Equal iff the vectors
agree at every position; Greater (resp. Lesser) iff they differ somewhere
and every differing position of the first is strictly above (resp. below)
the second's; and Conflicting iff some position is strictly below and
another strictly above. -/
theorem compareTo_characterization (a b : List Int) (h : a.length = b.length) :
    (CompareTo a b = some Order.Equal ↔
      ∀ i, i < a.length → a.getD i 0 = b.getD i 0) ∧
    (CompareTo a b = some Order.Greater ↔
      ((∃ i, i < a.length ∧ a.getD i 0 ≠ b.getD i 0) ∧
       ∀ i, i < a.length → a.getD i 0 ≠ b.getD i 0 → b.getD i 0 < a.getD i 0)) ∧
    (CompareTo a b = some Order.Lesser ↔
      ((∃ i, i < a.length ∧ a.getD i 0 ≠ b.getD i 0) ∧
       ∀ i, i < a.length → a.getD i 0 ≠ b.getD i 0 → a.getD i 0 < b.getD i 0)) ∧
    (CompareTo a b = some Order.Conflicting ↔
      ((∃ i, i < a.length ∧ a.getD i 0 < b.getD i 0) ∧
       (∃ i, i < a.length ∧ b.getD i 0 < a.getD i 0))) := by
  have hsome : ∀ x : Order, (CompareTo a b = some x) ↔ compareToGo Order.Equal a b = x := by
    intro x
    unfold CompareTo
    rw [if_pos h]
    exact ⟨fun hx => Option.some.inj hx, fun hx => by rw [hx]⟩
  have hLiff := hasLt_iff a b h
  have hGiff := hasGt_iff a b h
  have hPiff := pointwise_iff_no_ltgt a b h
  rw [hsome, hsome, hsome, hsome]
  cases hL : hasLt a b with
  | true =>
    cases hG : hasGt a b with
    | true =>
      -- Conflicting
      have hr : compareToGo Order.Equal a b = Order.Conflicting := by
        rw [compareToGo_equal, hL, hG]; simp
      rw [hr]
      obtain ⟨i, hi, hilt⟩ := hLiff.mp hL
      obtain ⟨j, hj, hjgt⟩ := hGiff.mp hG
      refine ⟨?_, ?_, ?_, ?_⟩
      · constructor
        · intro hx; exact absurd hx (by simp)
        · intro hp; exact absurd (hp i hi) (ne_of_lt hilt)
      · constructor
        · intro hx; exact absurd hx (by simp)
        · rintro ⟨-, hall⟩
          exact absurd (hall i hi (ne_of_lt hilt)) (lt_asymm hilt)
      · constructor
        · intro hx; exact absurd hx (by simp)
        · rintro ⟨-, hall⟩
          exact absurd (hall j hj (ne_of_gt hjgt)) (lt_asymm hjgt)
      · exact ⟨fun _ => ⟨⟨i, hi, hilt⟩, ⟨j, hj, hjgt⟩⟩, fun _ => rfl⟩
    | false =>
      -- Lesser
      have hr : compareToGo Order.Equal a b = Order.Lesser := by
        rw [compareToGo_equal, hL, hG]; simp
      rw [hr]
      obtain ⟨i, hi, hilt⟩ := hLiff.mp hL
      refine ⟨?_, ?_, ?_, ?_⟩
      · constructor
        · intro hx; exact absurd hx (by simp)
        · intro hp; exact absurd (hp i hi) (ne_of_lt hilt)
      · constructor
        · intro hx; exact absurd hx (by simp)
        · rintro ⟨-, hall⟩
          exact absurd (hall i hi (ne_of_lt hilt)) (lt_asymm hilt)
      · refine ⟨fun _ => ⟨⟨i, hi, ne_of_lt hilt⟩, ?_⟩, fun _ => rfl⟩
        intro k hk hne
        rcases lt_or_gt_of_ne hne with hlt | hgt
        · exact hlt
        · have hx : hasGt a b = true := hGiff.mpr ⟨k, hk, hgt⟩
          rw [hx] at hG; exact absurd hG (by simp)
      · constructor
        · intro hx; exact absurd hx (by simp)
        · rintro ⟨-, ⟨j, hj, hjgt⟩⟩
          have hx : hasGt a b = true := hGiff.mpr ⟨j, hj, hjgt⟩
          rw [hx] at hG; exact absurd hG (by simp)
  | false =>
    cases hG : hasGt a b with
    | true =>
      -- Greater
      have hr : compareToGo Order.Equal a b = Order.Greater := by
        rw [compareToGo_equal, hL, hG]; simp
      rw [hr]
      obtain ⟨j, hj, hjgt⟩ := hGiff.mp hG
      refine ⟨?_, ?_, ?_, ?_⟩
      · constructor
        · intro hx; exact absurd hx (by simp)
        · intro hp; exact absurd (hp j hj) (ne_of_gt hjgt)
      · refine ⟨fun _ => ⟨⟨j, hj, ne_of_gt hjgt⟩, ?_⟩, fun _ => rfl⟩
        intro k hk hne
        rcases lt_or_gt_of_ne hne with hlt | hgt
        · have hx : hasLt a b = true := hLiff.mpr ⟨k, hk, hlt⟩
          rw [hx] at hL; exact absurd hL (by simp)
        · exact hgt
      · constructor
        · intro hx; exact absurd hx (by simp)
        · rintro ⟨-, hall⟩
          exact absurd (hall j hj (ne_of_gt hjgt)) (lt_asymm hjgt)
      · constructor
        · intro hx; exact absurd hx (by simp)
        · rintro ⟨⟨i, hi, hilt⟩, -⟩
          have hx : hasLt a b = true := hLiff.mpr ⟨i, hi, hilt⟩
          rw [hx] at hL; exact absurd hL (by simp)
    | false =>
      -- Equal
      have hr : compareToGo Order.Equal a b = Order.Equal := by
        rw [compareToGo_equal, hL, hG]; simp
      rw [hr]
      have hp : ∀ i, i < a.length → a.getD i 0 = b.getD i 0 := hPiff.mpr ⟨hL, hG⟩
      refine ⟨?_, ?_, ?_, ?_⟩
      · exact ⟨fun _ => hp, fun _ => rfl⟩
      · constructor
        · intro hx; exact absurd hx (by simp)
        · rintro ⟨⟨i, hi, hne⟩, -⟩
          exact absurd (hp i hi) hne
      · constructor
        · intro hx; exact absurd hx (by simp)
        · rintro ⟨⟨i, hi, hne⟩, -⟩
          exact absurd (hp i hi) hne
      · constructor
        · intro hx; exact absurd hx (by simp)
        · rintro ⟨⟨i, hi, hilt⟩, -⟩
          have hx : hasLt a b = true := hLiff.mpr ⟨i, hi, hilt⟩
          rw [hx] at hL; exact absurd hL (by simp)

/-- Witness for C6 at the clocks [0,1,2,3] and [1,2,3,4] of the vc test
table (the Lesser row). -/
theorem compareTo_characterization_witness :
    ([0, 1, 2, 3] : List Int).length = ([1, 2, 3, 4] : List Int).length ∧
    (CompareTo [0, 1, 2, 3] [1, 2, 3, 4] = some Order.Equal ↔
      ∀ i, i < ([0, 1, 2, 3] : List Int).length →
        ([0, 1, 2, 3] : List Int).getD i 0 = ([1, 2, 3, 4] : List Int).getD i 0) :=
  ⟨by decide, (compareTo_characterization [0, 1, 2, 3] [1, 2, 3, 4] (by decide)).1⟩

/-! ### Association-list and update lemmas shared by the puller and
`ReplaceWithDelete` theorems -/

theorem lookupA_nil {κ α : Type} [DecidableEq κ] (k : κ) :
    lookupA ([] : List (κ × α)) k = none := rfl

theorem lookupA_cons {κ α : Type} [DecidableEq κ] (p : κ × α) (ps : List (κ × α)) (k : κ) :
    lookupA (p :: ps) k = if p.1 = k then some p.2 else lookupA ps k := rfl

theorem removeA_nil {κ α : Type} [DecidableEq κ] (k : κ) :
    removeA ([] : List (κ × α)) k = [] := rfl

theorem removeA_cons {κ α : Type} [DecidableEq κ] (p : κ × α) (ps : List (κ × α)) (k : κ) :
    removeA (p :: ps) k = if p.1 = k then removeA ps k else p :: removeA ps k := rfl

theorem lookupA_append_singleton {κ α : Type} [DecidableEq κ] :
    ∀ (l : List (κ × α)) (k : κ) (v : α),
      (∀ p ∈ l, p.1 ≠ k) → lookupA (l ++ [(k, v)]) k = some v := by
  intro l
  induction l with
  | nil => intro k v _; simp [lookupA]
  | cons p ps ih =>
    intro k v hne
    have hp : p.1 ≠ k := hne p (List.mem_cons_self _ _)
    show lookupA (p :: (ps ++ [(k, v)])) k = some v
    unfold lookupA
    rw [if_neg hp]
    exact ih k v (fun q hq => hne q (List.mem_cons_of_mem _ hq))

theorem removeA_key_ne {κ α : Type} [DecidableEq κ] :
    ∀ (l : List (κ × α)) (k : κ), ∀ p ∈ removeA l k, p.1 ≠ k := by
  intro l
  induction l with
  | nil => intro k p hp; exact absurd hp (by simp [removeA])
  | cons q qs ih =>
    intro k p hp
    unfold removeA at hp
    by_cases hq : q.1 = k
    · rw [if_pos hq] at hp
      exact ih k p hp
    · rw [if_neg hq] at hp
      rcases List.mem_cons.mp hp with rfl | hp'
      · exact hq
      · exact ih k p hp'

theorem lookupA_insertA_self {κ α : Type} [DecidableEq κ]
    (m : List (κ × α)) (k : κ) (v : α) : lookupA (insertA m k v) k = some v :=
  lookupA_append_singleton (removeA m k) k v (removeA_key_ne m k)

theorem lookupA_append {κ α : Type} [DecidableEq κ] :
    ∀ (l l' : List (κ × α)) (k : κ),
      lookupA (l ++ l') k = ((lookupA l k).map some).getD (lookupA l' k) := by
  intro l
  induction l with
  | nil => intro l' k; rfl
  | cons p ps ih =>
    intro l' k
    show lookupA (p :: (ps ++ l')) k = _
    rw [lookupA_cons, lookupA_cons]
    by_cases hp : p.1 = k
    · rw [if_pos hp, if_pos hp]; rfl
    · rw [if_neg hp, if_neg hp]; exact ih l' k

theorem lookupA_removeA_ne {κ α : Type} [DecidableEq κ] :
    ∀ (l : List (κ × α)) (k k' : κ), k' ≠ k →
      lookupA (removeA l k) k' = lookupA l k' := by
  intro l
  induction l with
  | nil => intro k k' _; rfl
  | cons p ps ih =>
    intro k k' hkk
    rw [removeA_cons, lookupA_cons]
    by_cases hp : p.1 = k
    · rw [if_pos hp]
      have hpk : p.1 ≠ k' := by rw [hp]; exact fun hc => hkk hc.symm
      rw [if_neg hpk]
      exact ih k k' hkk
    · rw [if_neg hp, lookupA_cons]
      by_cases hp' : p.1 = k'
      · rw [if_pos hp', if_pos hp']
      · rw [if_neg hp', if_neg hp']
        exact ih k k' hkk

theorem lookupA_insertA_ne {κ α : Type} [DecidableEq κ]
    (m : List (κ × α)) (k k' : κ) (v : α) (h : k' ≠ k) :
    lookupA (insertA m k v) k' = lookupA m k' := by
  unfold insertA
  rw [lookupA_append]
  rw [lookupA_removeA_ne m k k' h]
  cases hm : lookupA m k' with
  | some w => rfl
  | none =>
    show lookupA [(k, v)] k' = none
    unfold lookupA
    rw [if_neg (fun hc : k = k' => h hc.symm)]
    rfl

theorem compareGo_refl_aux : ∀ (r : Order) (v : List Int), compareGo r v v = r := by
  intro r v
  induction v generalizing r with
  | nil => rfl
  | cons c cs ih =>
    show compareGo r (c :: cs) (c :: cs) = r
    unfold compareGo
    simp [lt_irrefl]
    exact ih r

theorem compare_refl (v : List Int) : Compare v v = Order.Equal :=
  compareGo_refl_aux Order.Equal v

theorem equalsK_refl (k : Key) : Key.equalsK k k = true := by
  simp [Key.equalsK, compare_refl]

theorem storeRecord_remoteKey (s : SetState) (fk : Key) (f : File) :
    (storeRecord s fk f).remoteKey = s.remoteKey := by
  unfold storeRecord
  cases lookupA s.files fk <;> rfl

theorem storeRecord_changes (s : SetState) (fk : Key) (f : File) :
    (storeRecord s fk f).changes = s.changes := by
  unfold storeRecord
  cases lookupA s.files fk <;> rfl

theorem updateFileStore_remoteKey (p : Fin 64) (s : SetState) (f : File) :
    (updateFileStore p s f).remoteKey =
      Function.update s.remoteKey p (insertA (s.remoteKey p) f.name (keyFor f)) := by
  simp only [updateFileStore]
  split_ifs <;> simp [storeRecord_remoteKey]

theorem update_single_sets_lookup (p : Fin 64) (f : File) (s : SetState) :
    ∃ k, lookupA ((Update p [f] s).remoteKey p) f.name = some k ∧
      Key.equalsK k (keyFor f) = true := by
  have hu : Update p [f] s = bumpChanges p (updateFile p s f) := rfl
  have hb : ∀ s' : SetState, (bumpChanges p s').remoteKey = s'.remoteKey :=
    fun s' => rfl
  rw [hu, hb]
  cases hm : lookupA (s.remoteKey p) f.name with
  | some ck =>
    by_cases he : Key.equalsK ck (keyFor f) = true
    · simp only [updateFile, hm, he, if_true]
      exact ⟨ck, rfl, he⟩
    · rw [Bool.not_eq_true] at he
      simp only [updateFile, hm, he, Bool.false_eq_true, if_false]
      refine ⟨keyFor f, ?_, equalsK_refl _⟩
      rw [updateFileStore_remoteKey]
      rw [Function.update_same]
      exact lookupA_insertA_self _ _ _
  | none =>
    simp only [updateFile, hm]
    refine ⟨keyFor f, ?_, equalsK_refl _⟩
    rw [updateFileStore_remoteKey]
    rw [Function.update_same]
    exact lookupA_insertA_self _ _ _

theorem zip_any_false_eq_map_hash :
    ∀ (hs : List (List Nat)) (bs : List Block), hs.length = bs.length →
      ((hs.zip bs).any fun p => p.1 ≠ p.2.hash) = false →
      hs = bs.map Block.hash := by
  intro hs
  induction hs with
  | nil =>
    intro bs h _
    cases bs with
    | nil => rfl
    | cons b bt => exact absurd h (by simp)
  | cons x xt ih =>
    intro bs h hz
    cases bs with
    | nil => exact absurd h (by simp)
    | cons b bt =>
      have h' : xt.length = bt.length := by simpa using h
      have hz' : ((x, b) :: xt.zip bt).any (fun p => p.1 ≠ p.2.hash) = false := by
        simpa [List.zip_cons_cons] using hz
      rw [List.any_cons] at hz'
      have hx : x = b.hash := by
        have := (Bool.or_eq_false_iff.mp hz').1
        simpa using this
      have ht : (xt.zip bt).any (fun p => p.1 ≠ p.2.hash) = false :=
        (Bool.or_eq_false_iff.mp hz').2
      rw [List.map_cons, hx, ih bt h' ht]

/-! ### C8 -/

/-- C8: once the done flag is set and the outstanding count reaches zero,
the temp file is re-hashed and compared to the expected block list.  On a
block-count or hash mismatch the temp file is removed and the file set is
untouched; only when every hash matches (and the rename succeeds) is the
file renamed and published via `Update(local, [f])`, after which the local
map holds `f`'s fingerprint and the verified temp hashes equal the expected
blocks' hashes. -/
theorem completion_verifies_hashes (io : IOOutcome) (res : RRes) (st : PullerState)
    (of : OpenFile)
    (hof : lookupA st.openFiles res.file.name = some of)
    (herr : of.err = none)
    (hdone : of.done = true)
    (hout : of.outstanding = 1)
    (hopen : io.openFails = false) :
    ((io.hashed.length ≠ res.file.blocks.length ∨
        (io.hashed.zip res.file.blocks).any (fun p => p.1 ≠ p.2.hash) = true) →
      (handleRequestResult io res st).2 = ⟨true, false⟩ ∧
      (handleRequestResult io res st).1.fs = st.fs) ∧
    ((io.hashed.length = res.file.blocks.length ∧
        (io.hashed.zip res.file.blocks).any (fun p => p.1 ≠ p.2.hash) = false ∧
        io.renameOk = true) →
      (handleRequestResult io res st).2 = ⟨true, true⟩ ∧
      (handleRequestResult io res st).1.fs = Update 0 [res.file] st.fs ∧
      (∃ k, lookupA ((handleRequestResult io res st).1.fs.remoteKey 0) res.file.name = some k ∧
        Key.equalsK k (keyFor res.file) = true) ∧
      io.hashed = res.file.blocks.map Block.hash) := by
  have hcond : (({ of with err := io.writeErr, outstanding := of.outstanding - 1 } : OpenFile).done ∧
      ({ of with err := io.writeErr, outstanding := of.outstanding - 1 } : OpenFile).outstanding = 0) := by
    refine ⟨hdone, ?_⟩
    show of.outstanding - 1 = 0
    rw [hout]; rfl
  have heq : handleRequestResult io res st =
      (if io.openFails then (completionSt io res st of, ⟨true, false⟩)
       else if io.hashed.length ≠ res.file.blocks.length then (completionSt io res st of, ⟨true, false⟩)
       else if (io.hashed.zip res.file.blocks).any (fun p => p.1 ≠ p.2.hash) then
         (completionSt io res st of, ⟨true, false⟩)
       else if io.renameOk then
         ({ completionSt io res st of with
             fs := Update 0 [res.file] (completionSt io res st of).fs }, ⟨true, true⟩)
       else (completionSt io res st of, ⟨true, false⟩)) := by
    have hne : ¬ (of.err ≠ none) := by simp [herr]
    simp only [handleRequestResult, hof]
    rw [if_neg hne]
    rw [if_pos hcond]
  have hfs : (completionSt io res st of).fs = st.fs := rfl
  have hO : ¬ (io.openFails = true) := by simp [hopen]
  rw [heq]
  rw [if_neg hO]
  constructor
  · intro hmis
    by_cases hlen : io.hashed.length = res.file.blocks.length
    · have hany : (io.hashed.zip res.file.blocks).any (fun p => p.1 ≠ p.2.hash) = true := by
        rcases hmis with hl | ha
        · exact absurd hlen hl
        · exact ha
      have h1 : ¬ (io.hashed.length ≠ res.file.blocks.length) := by simpa using hlen
      rw [if_neg h1, if_pos hany]
      exact ⟨rfl, hfs⟩
    · rw [if_pos hlen]
      exact ⟨rfl, hfs⟩
  · rintro ⟨hlen, hany, hren⟩
    have h1 : ¬ (io.hashed.length ≠ res.file.blocks.length) := by simpa using hlen
    have h2 : ¬ ((io.hashed.zip res.file.blocks).any (fun p => p.1 ≠ p.2.hash) = true) := by
      rw [hany]; exact Bool.false_ne_true
    rw [if_neg h1, if_neg h2, if_pos hren]
    refine ⟨rfl, hfs ▸ rfl, ?_, zip_any_false_eq_map_hash io.hashed res.file.blocks hlen hany⟩
    exact update_single_sets_lookup 0 res.file st.fs

/-- The open file used by the C8 witness. -/
def ofW : OpenFile :=
  { zeroOpenFile with done := true, outstanding := 1 }

/-- The file pulled in the C8 witness. -/
def fW : File := { mkF "f" [1] with blocks := [blkB] }

/-- The puller state of the C8 witness. -/
def stW : PullerState :=
  { activity := [("peerA", 1)], openFiles := [("f", ofW)], slots := 0, fs := initSet }

/-- The IO outcome of the C8 witness: hashing reproduces the expected hash
and the rename succeeds. -/
def ioW : IOOutcome :=
  { writeErr := none, openFails := false, hashed := [[1, 2, 3]], renameOk := true }

/-- The request result of the C8 witness. -/
def resW : RRes := { node := "peerA", file := fW, offset := 0, err := none }

/-- Witness for C8: a completed one-block file whose hash matches is
renamed and published. -/
theorem completion_verifies_hashes_witness :
    (lookupA stW.openFiles resW.file.name = some ofW ∧ ofW.err = none ∧
     ofW.done = true ∧ ofW.outstanding = 1 ∧ ioW.openFails = false ∧
     ioW.hashed.length = resW.file.blocks.length ∧
     (ioW.hashed.zip resW.file.blocks).any (fun p => p.1 ≠ p.2.hash) = false ∧
     ioW.renameOk = true) ∧
    ((handleRequestResult ioW resW stW).2 = ⟨true, true⟩ ∧
     (handleRequestResult ioW resW stW).1.fs = Update 0 [resW.file] stW.fs ∧
     (∃ k, lookupA ((handleRequestResult ioW resW stW).1.fs.remoteKey 0) resW.file.name = some k ∧
       Key.equalsK k (keyFor resW.file) = true) ∧
     ioW.hashed = resW.file.blocks.map Block.hash) :=
  ⟨⟨by decide, by decide, by decide, by decide, by decide, by decide, by decide, by decide⟩,
   (completion_verifies_hashes ioW resW stW ofW (by decide) (by decide) (by decide)
     (by decide) (by decide)).2 ⟨by decide, by decide, by decide⟩⟩

/-! ### C9 -/

/-- The open file of the C9 counterexample: live, no error, two requests
outstanding. -/
def ofE : OpenFile := { zeroOpenFile with outstanding := 2 }

/-- The puller state of the C9 counterexample. -/
def stE : PullerState :=
  { activity := [("peerA", 1)], openFiles := [("f", ofE)], slots := 0, fs := initSet }

/-- A request result that carries a remote error. -/
def resE : RRes := { node := "peerA", file := mkF "f" [1], offset := 0, err := some "remote error" }

/-- The IO outcome for the C9 counterexample: the `WriteAt` of the empty
response succeeds. -/
def ioE : IOOutcome := { writeErr := none, openFails := false, hashed := [], renameOk := false }

/-- C9 counterexample: a request result with a non-nil error is handled by
releasing the slot and decrementing the peer's counter, but the open file's
sticky error is NOT set — it stays `none`, because `handleRequestResult`
never reads `res.err`. -/
theorem request_error_not_sticky :
    resE.err = some "remote error" ∧
    (onRequestResult ioE resE stE).1.slots = stE.slots + 1 ∧
    getDA stE.activity "peerA" 0 = 1 ∧
    getDA (onRequestResult ioE resE stE).1.activity "peerA" 0 = 0 ∧
    (lookupA (onRequestResult ioE resE stE).1.openFiles "f").map OpenFile.err =
      some none := by
  decide

/-- C9 (amended): when a remote request completes, the slot is released and
the chosen peer's outstanding counter and the file's outstanding count are
decremented, but the result handler ignores `res.err` entirely — the result
state is identical whatever the request error was, and the entry's sticky
error is set to the `WriteAt` outcome only.  A missing block is caught only
later, by the completion re-hash. -/
theorem handler_ignores_request_error (io : IOOutcome) (res : RRes)
    (st : PullerState) (e : Option String) (of : OpenFile)
    (hof : lookupA st.openFiles res.file.name = some of)
    (herr : of.err = none)
    (hlive : ¬ (of.done = true ∧ of.outstanding - 1 = 0)) :
    onRequestResult io { res with err := e } st = onRequestResult io res st ∧
    (onRequestResult io res st).1.slots = st.slots + 1 ∧
    (onRequestResult io res st).1.activity = decreaseA st.activity res.node ∧
    lookupA (onRequestResult io res st).1.openFiles res.file.name =
      some { of with err := io.writeErr, outstanding := of.outstanding - 1 } := by
  have hne : ¬ (of.err ≠ none) := by simp [herr]
  have hlive' : ¬ (({ of with err := io.writeErr, outstanding := of.outstanding - 1 } : OpenFile).done = true ∧
      ({ of with err := io.writeErr, outstanding := of.outstanding - 1 } : OpenFile).outstanding = 0) := by
    simpa using hlive
  have hbr : ∀ r : RRes, r.node = res.node → r.file = res.file →
      onRequestResult io r st =
        ({ st with slots := st.slots + 1, activity := decreaseA st.activity res.node,
                   openFiles := insertA st.openFiles res.file.name
                     { of with err := io.writeErr, outstanding := of.outstanding - 1 } },
          ⟨false, false⟩) := by
    intro r hn hf
    simp only [onRequestResult, handleRequestResult, hn, hf, hof]
    rw [if_neg hne, if_neg hlive']
  refine ⟨?_, ?_, ?_, ?_⟩
  · rw [hbr { res with err := e } rfl rfl, hbr res rfl rfl]
  · rw [hbr res rfl rfl]
  · rw [hbr res rfl rfl]
  · rw [hbr res rfl rfl]
    exact lookupA_insertA_self _ _ _

/-- Witness for the amended C9 at the concrete counterexample state. -/
theorem handler_ignores_request_error_witness :
    (lookupA stE.openFiles resE.file.name = some ofE ∧ ofE.err = none ∧
     ¬ (ofE.done = true ∧ ofE.outstanding - 1 = 0)) ∧
    (onRequestResult ioE { resE with err := some "other" } stE = onRequestResult ioE resE stE ∧
     (onRequestResult ioE resE stE).1.slots = stE.slots + 1 ∧
     (onRequestResult ioE resE stE).1.activity = decreaseA stE.activity resE.node ∧
     lookupA (onRequestResult ioE resE stE).1.openFiles resE.file.name =
       some { ofE with err := ioE.writeErr, outstanding := ofE.outstanding - 1 }) :=
  ⟨⟨by decide, by decide, by decide⟩,
   handler_ignores_request_error ioE resE stE (some "other") ofE (by decide) (by decide)
     (by decide)⟩

/-! ### C10 -/

/-- C10: when no connected non-local peer has its availability bit set,
`leastBusyNode` returns the empty string and still increments the activity
counter under the empty-string key, and `handleRequestBlock` then puts the
request slot back and returns without issuing a request, without touching
the open-file table (no sticky error, entry kept). -/
theorem no_available_peer_releases_slot (cm : CidMap) (b : BqBlock) (st : PullerState)
    (of : OpenFile)
    (hof : lookupA st.openFiles b.file.name = some of)
    (hav : ∀ p ∈ cm, p.2 ≠ 0 → of.availability &&& (1 <<< p.2.val) = 0) :
    leastBusyNode st.activity of.availability cm =
      ("", insertA st.activity "" (getDA st.activity "" 0 + 1)) ∧
    handleRequestBlock cm b st =
      ({ st with activity := insertA st.activity "" (getDA st.activity "" 0 + 1),
                 slots := st.slots + 1 }, []) := by
  have hfold : ∀ (l : CidMap), (∀ p ∈ l, p.2 ≠ 0 → of.availability &&& (1 <<< p.2.val) = 0) →
      ∀ acc : Int × String,
      l.foldl
        (fun acc p =>
          if p.2 = (0 : Fin 64) then acc
          else if of.availability &&& (1 <<< p.2.val) ≠ 0 ∧ getDA st.activity p.1 0 < acc.1 then
            (getDA st.activity p.1 0, p.1)
          else acc)
        acc = acc := by
    intro l
    induction l with
    | nil => intro _ acc; rfl
    | cons p ps ih =>
      intro h acc
      have hstep :
          (if p.2 = (0 : Fin 64) then acc
           else if of.availability &&& (1 <<< p.2.val) ≠ 0 ∧ getDA st.activity p.1 0 < acc.1 then
             (getDA st.activity p.1 0, p.1)
           else acc) = acc := by
        by_cases hz : p.2 = (0 : Fin 64)
        · rw [if_pos hz]
        · rw [if_neg hz]
          have hbit : of.availability &&& (1 <<< p.2.val) = 0 :=
            h p (List.mem_cons_self _ _) hz
          rw [if_neg (by simp [hbit])]
      show List.foldl _ _ (p :: ps) = acc
      rw [List.foldl_cons, hstep]
      exact ih (fun q hq => h q (List.mem_cons_of_mem _ hq)) acc
  have hlb : leastBusyNode st.activity of.availability cm =
      ("", insertA st.activity "" (getDA st.activity "" 0 + 1)) := by
    unfold leastBusyNode
    rw [hfold cm hav ((2 ^ 31 - 1 : Int), "")]
  refine ⟨hlb, ?_⟩
  have hof' : getDA st.openFiles b.file.name zeroOpenFile = of := by
    unfold getDA; rw [hof]; rfl
  simp only [handleRequestBlock, hof', hlb]
  rw [if_pos trivial]

/-- Witness for C10: one connected peer with index 1, availability bitmap
empty. -/
theorem no_available_peer_releases_slot_witness :
    (lookupA stW.openFiles ({ file := fW, offset := 0, size := 5, last := true } : BqBlock).file.name
        = some ofW ∧
     (∀ p ∈ ([("peerA", (1 : Fin 64))] : CidMap), p.2 ≠ 0 →
        ofW.availability &&& (1 <<< p.2.val) = 0)) ∧
    (leastBusyNode stW.activity ofW.availability [("peerA", (1 : Fin 64))] =
      ("", insertA stW.activity "" (getDA stW.activity "" 0 + 1)) ∧
     handleRequestBlock [("peerA", (1 : Fin 64))]
        { file := fW, offset := 0, size := 5, last := true } stW =
      ({ stW with activity := insertA stW.activity "" (getDA stW.activity "" 0 + 1),
                  slots := stW.slots + 1 }, [])) :=
  ⟨⟨by decide, by decide⟩,
   no_available_peer_releases_slot [("peerA", (1 : Fin 64))]
     { file := fW, offset := 0, size := 5, last := true } stW ofW (by decide) (by decide)⟩

/-! ### C7 -/

/-- C7 counterexample: peers 1 and 2 both hold b@[2] (flags 0), local holds
b@[1]; ReplaceWithDelete(local, []) must tombstone b. Its incremented
fingerprint (b, [2]) collides with the peers' record, so the block store
keeps the peers' record: the resulting local map entry for b points at a
record whose flags are 0, not Deleted (and with blocks and a size), not the
synthesized tombstone the claim describes. -/
theorem tombstone_record_not_stored :
    lookupA (sCollide.remoteKey 0) "b" = some ⟨"b", [1]⟩ ∧
    (ReplaceWithDelete 0 0 [] sCollide).map (fun s =>
        (lookupA (s.remoteKey 0) "b",
         (lookupA s.files ⟨"b", [2]⟩).map (fun r => r.file.flags))) =
      some (some ⟨"b", [2]⟩, some 0) ∧
    (0 : Nat) ≠ FlagDeleted := by
  decide

theorem lookupA_split {κ α : Type} [DecidableEq κ] :
    ∀ (l : List (κ × α)) (k : κ) (v : α), lookupA l k = some v →
      ∃ l1 l2, l = l1 ++ (k, v) :: l2 ∧ ∀ p ∈ l1, p.1 ≠ k := by
  intro l
  induction l with
  | nil => intro k v h; exact absurd h (by simp [lookupA])
  | cons p ps ih =>
    intro k v h
    rw [lookupA_cons] at h
    by_cases hp : p.1 = k
    · rw [if_pos hp] at h
      refine ⟨[], ps, ?_, by simp⟩
      have hv : p.2 = v := Option.some.inj h
      have hpair : p = (k, v) := by
        cases p
        simp at hp hv
        rw [hp, hv]
      rw [hpair]
      rfl
    · rw [if_neg hp] at h
      obtain ⟨l1, l2, heq, hall⟩ := ih k v h
      refine ⟨p :: l1, l2, by rw [heq]; rfl, ?_⟩
      intro q hq
      rcases List.mem_cons.mp hq with rfl | hq'
      · exact hp
      · exact hall q hq'

theorem buildTombs_nil (s : SetState) (t : Int) (id : Fin 64) (nf : List String) :
    buildTombs s t id nf [] = some [] := rfl

theorem buildTombs_cons (s : SetState) (t : Int) (id : Fin 64) (nf : List String)
    (p : String × Key) (ps : List (String × Key)) :
    buildTombs s t id nf (p :: ps) =
      if p.2.name ∈ nf then buildTombs s t id nf ps
      else
        match tombstoneOf s t id p.2, buildTombs s t id nf ps with
        | some tf, some ts => some (tf :: ts)
        | _, _ => none := rfl

theorem buildTombs_append (s : SetState) (t : Int) (id : Fin 64) (nf : List String) :
    ∀ (l1 l2 : List (String × Key)),
      buildTombs s t id nf (l1 ++ l2) =
        match buildTombs s t id nf l1, buildTombs s t id nf l2 with
        | some a, some b => some (a ++ b)
        | _, _ => none := by
  intro l1
  induction l1 with
  | nil =>
    intro l2
    show buildTombs s t id nf l2 = _
    cases buildTombs s t id nf l2 <;> rfl
  | cons p ps ih =>
    intro l2
    show buildTombs s t id nf (p :: (ps ++ l2)) = _
    rw [buildTombs_cons s t id nf p (ps ++ l2), buildTombs_cons s t id nf p ps]
    by_cases hm : p.2.name ∈ nf
    · rw [if_pos hm, if_pos hm, ih l2]
    · rw [if_neg hm, if_neg hm]
      cases htf : tombstoneOf s t id p.2 with
      | none =>
        cases buildTombs s t id nf ps <;> cases buildTombs s t id nf l2 <;> rfl
      | some tf =>
        rw [ih l2]
        cases buildTombs s t id nf ps <;> cases buildTombs s t id nf l2 <;> rfl

theorem buildTombs_mem (s : SetState) (t : Int) (id : Fin 64) (nf : List String) :
    ∀ (l : List (String × Key)) (ts : List File), buildTombs s t id nf l = some ts →
      ∀ g ∈ ts, ∃ p, p ∈ l ∧ tombstoneOf s t id p.2 = some g := by
  intro l
  induction l with
  | nil =>
    intro ts h g hg
    have : ts = [] := (Option.some.inj h).symm
    rw [this] at hg
    exact absurd hg (by simp)
  | cons p ps ih =>
    intro ts h g hg
    unfold buildTombs at h
    by_cases hm : p.2.name ∈ nf
    · rw [if_pos hm] at h
      obtain ⟨q, hq, hqt⟩ := ih ts h g hg
      exact ⟨q, List.mem_cons_of_mem _ hq, hqt⟩
    · rw [if_neg hm] at h
      cases htf : tombstoneOf s t id p.2 with
      | none => rw [htf] at h; exact absurd h (by simp)
      | some tf =>
        rw [htf] at h
        cases hbt : buildTombs s t id nf ps with
        | none => rw [hbt] at h; exact absurd h (by simp)
        | some ts' =>
          rw [hbt] at h
          have hts : ts = tf :: ts' := (Option.some.inj h).symm
          rw [hts] at hg
          rcases List.mem_cons.mp hg with rfl | hg'
          · exact ⟨p, List.mem_cons_self _ _, htf⟩
          · obtain ⟨q, hq, hqt⟩ := ih ts' hbt g hg'
            exact ⟨q, List.mem_cons_of_mem _ hq, hqt⟩

/-! State-projection lemmas for the phases of `replace`. -/

theorem decrementFile_remoteKey (s : SetState) (fk : Key) :
    (decrementFile s fk).remoteKey = s.remoteKey := by
  cases hbr : lookupA s.files fk with
  | none => simp only [decrementFile, hbr]
  | some br =>
    simp only [decrementFile, hbr]
    split_ifs <;> rfl

theorem decrementFile_files_none (s : SetState) (fk k : Key)
    (h : lookupA s.files k = none) : lookupA (decrementFile s fk).files k = none := by
  cases hbr : lookupA s.files fk with
  | none => simp only [decrementFile, hbr]; exact h
  | some br =>
    have hkk : k ≠ fk := by
      intro hc
      rw [hc, hbr] at h
      exact absurd h (by simp)
    simp only [decrementFile, hbr]
    split_ifs
    · show lookupA (eraseA s.files fk) k = none
      unfold eraseA
      rw [lookupA_removeA_ne s.files fk k hkk]
      exact h
    · show lookupA (insertA s.files fk _) k = none
      rw [lookupA_insertA_ne s.files fk k _ hkk]
      exact h
    · exact h

theorem recomputeName_remoteKey (s : SetState) (n : String) :
    (recomputeName s n).remoteKey = s.remoteKey := by
  simp only [recomputeName]
  split_ifs <;> rfl

theorem recomputeName_files (s : SetState) (n : String) :
    (recomputeName s n).files = s.files := by
  simp only [recomputeName]
  split_ifs <;> rfl

theorem foldl_decrement_remoteKey (l : List (String × Key)) :
    ∀ s : SetState, (l.foldl (fun s p => decrementFile s p.2) s).remoteKey = s.remoteKey := by
  induction l with
  | nil => intro s; rfl
  | cons p ps ih =>
    intro s
    rw [List.foldl_cons, ih, decrementFile_remoteKey]

theorem foldl_decrement_files_none (l : List (String × Key)) :
    ∀ (s : SetState) (k : Key), lookupA s.files k = none →
      lookupA ((l.foldl (fun s p => decrementFile s p.2) s)).files k = none := by
  induction l with
  | nil => intro s k h; exact h
  | cons p ps ih =>
    intro s k h
    rw [List.foldl_cons]
    exact ih _ k (decrementFile_files_none s p.2 k h)

theorem foldl_recompute_remoteKey (l : List (String × Key)) :
    ∀ s : SetState,
      (l.foldl (fun s p => recomputeName s p.1) s).remoteKey = s.remoteKey := by
  induction l with
  | nil => intro s; rfl
  | cons p ps ih =>
    intro s
    rw [List.foldl_cons, ih, recomputeName_remoteKey]

theorem foldl_recompute_files (l : List (String × Key)) :
    ∀ s : SetState,
      (l.foldl (fun s p => recomputeName s p.1) s).files = s.files := by
  induction l with
  | nil => intro s; rfl
  | cons p ps ih =>
    intro s
    rw [List.foldl_cons, ih, recomputeName_files]

/-! Preservation of the interesting lookups across `update`. -/

theorem storeRecord_files_lookup_ne (s : SetState) (fk : Key) (f : File) (k : Key)
    (h : k ≠ fk) : lookupA (storeRecord s fk f).files k = lookupA s.files k := by
  cases hbr : lookupA s.files fk with
  | none =>
    simp only [storeRecord, hbr]
    exact lookupA_insertA_ne s.files fk k _ h
  | some br =>
    simp only [storeRecord, hbr]
    exact lookupA_insertA_ne s.files fk k _ h

theorem updateFileStore_files_lookup_ne (p : Fin 64) (s : SetState) (f : File)
    (k0 : Key) (h : k0 ≠ keyFor f) :
    lookupA (updateFileStore p s f).files k0 = lookupA s.files k0 := by
  simp only [updateFileStore]
  split_ifs <;> exact storeRecord_files_lookup_ne _ _ _ _ h

theorem updateFileStore_files_fresh (p : Fin 64) (s : SetState) (f : File)
    (h : lookupA s.files (keyFor f) = none) :
    lookupA (updateFileStore p s f).files (keyFor f) = some ⟨1, f⟩ := by
  have hstore : ∀ s' : SetState, lookupA s'.files (keyFor f) = none →
      lookupA (storeRecord s' (keyFor f) f).files (keyFor f) = some ⟨1, f⟩ := by
    intro s' h'
    simp only [storeRecord, h']
    exact lookupA_insertA_self _ _ _
  simp only [updateFileStore]
  split_ifs <;> exact hstore _ h

theorem updateFile_preserves (g : File) (x : SetState) (n : String) (k0 : Key)
    (hn : g.name ≠ n) (hk : keyFor g ≠ k0) :
    lookupA ((updateFile 0 x g).remoteKey 0) n = lookupA (x.remoteKey 0) n ∧
    lookupA (updateFile 0 x g).files k0 = lookupA x.files k0 := by
  have hstore :
      lookupA ((updateFileStore 0 x g).remoteKey 0) n = lookupA (x.remoteKey 0) n ∧
      lookupA (updateFileStore 0 x g).files k0 = lookupA x.files k0 := by
    constructor
    · rw [updateFileStore_remoteKey, Function.update_same]
      exact lookupA_insertA_ne _ _ _ _ (fun hc => hn hc.symm)
    · exact updateFileStore_files_lookup_ne _ _ _ _ (fun hc => hk hc.symm)
  cases hm : lookupA (x.remoteKey 0) g.name with
  | some ck =>
    by_cases he : Key.equalsK ck (keyFor g) = true
    · simp only [updateFile, hm, he, if_true]
      exact ⟨by trivial, by trivial⟩
    · rw [Bool.not_eq_true] at he
      simp only [updateFile, hm, he, Bool.false_eq_true, if_false]
      exact hstore
  | none =>
    simp only [updateFile, hm]
    exact hstore

theorem update_preserves (n : String) (k0 : Key) :
    ∀ (L : List File) (x : SetState), (∀ g ∈ L, g.name ≠ n ∧ keyFor g ≠ k0) →
      lookupA ((update x 0 L).remoteKey 0) n = lookupA (x.remoteKey 0) n ∧
      lookupA (update x 0 L).files k0 = lookupA x.files k0 := by
  intro L
  induction L with
  | nil => intro x _; exact ⟨rfl, rfl⟩
  | cons g gs ih =>
    intro x h
    have hg := h g (List.mem_cons_self _ _)
    have hstep := updateFile_preserves g x n k0 hg.1 hg.2
    have hrest := ih (updateFile 0 x g) (fun q hq => h q (List.mem_cons_of_mem _ hq))
    show lookupA ((update (updateFile 0 x g) 0 gs).remoteKey 0) n = lookupA (x.remoteKey 0) n ∧
      lookupA (update (updateFile 0 x g) 0 gs).files k0 = lookupA x.files k0
    refine ⟨?_, ?_⟩
    · rw [hrest.1, hstep.1]
    · rw [hrest.2, hstep.2]

theorem updateFile_tombstone (tf : File) (x : SetState)
    (hrk : lookupA (x.remoteKey 0) tf.name = none)
    (hfk : lookupA x.files (keyFor tf) = none) :
    lookupA ((updateFile 0 x tf).remoteKey 0) tf.name = some (keyFor tf) ∧
    lookupA (updateFile 0 x tf).files (keyFor tf) = some ⟨1, tf⟩ := by
  simp only [updateFile, hrk]
  constructor
  · rw [updateFileStore_remoteKey, Function.update_same]
    exact lookupA_insertA_self _ _ _
  · exact updateFileStore_files_fresh 0 x tf hfk

theorem decrementAll_files_none (s : SetState) (cid : Fin 64) (k : Key)
    (h : lookupA s.files k = none) : lookupA (decrementAll s cid).files k = none :=
  foldl_decrement_files_none (s.remoteKey cid) s k h

theorem recomputeGlobal_remoteKey (s : SetState) :
    (recomputeGlobal s).remoteKey = s.remoteKey :=
  foldl_recompute_remoteKey s.globalKey s

theorem recomputeGlobal_files (s : SetState) :
    (recomputeGlobal s).files = s.files :=
  foldl_recompute_files s.globalKey s

theorem update_append (x : SetState) (cid : Fin 64) (L1 L2 : List File) :
    update x cid (L1 ++ L2) = update (update x cid L1) cid L2 :=
  List.foldl_append _ _ _ _

/-- C7 (amended): after `ReplaceWithDelete(local, fs)` (when the call is
not skipped as identical), a name `n` of the previous local map that is
absent from `fs` ends up in the local map with the fingerprint
`(n, Inc(version stored for n, local index))` — `Inc` being the source's
max-of-wall-clock-or-increment step.  The record stored under that
fingerprint is the synthesized tombstone (previous record with
flags = Deleted, empty block list, size 0, incremented version) PROVIDED
the incremented fingerprint is not already in the block store and is not
introduced by `fs` or by another name's tombstone; when the fingerprint is
already present, the existing record is kept with a bumped usage count, so
in that case the claim's "flags = Deleted, blocks = [], size = 0" part of
the stored record fails (see the counterexample). -/
theorem replaceWithDelete_tombstone (s : SetState) (t : Int) (fs : List File)
    (n : String) (ck : Key) (br : FileRecord) (v' : List Int) (s' : SetState)
    (hguard : fs.length = 0 ∨ goEquals s 0 fs = false)
    (hnodup : ((s.remoteKey 0).map Prod.fst).Nodup)
    (hck : lookupA (s.remoteKey 0) n = some ck)
    (hckn : ck.name = n)
    (hrec : lookupA s.files ck = some br)
    (hrn : br.file.name = n)
    (hinc : Inc t 0 br.file.version = some v')
    (hnotfs : ∀ f ∈ fs, f.name ≠ n)
    (hfresh : lookupA s.files ⟨n, v'⟩ = none)
    (hfreshfs : ∀ f ∈ fs, keyFor f ≠ (⟨n, v'⟩ : Key))
    (hothers : ∀ p ∈ s.remoteKey 0, p.1 ≠ n → ∀ tf, tombstoneOf s t 0 p.2 = some tf →
      tf.name ≠ n ∧ keyFor tf ≠ (⟨n, v'⟩ : Key))
    (hrun : ReplaceWithDelete 0 t fs s = some s') :
    lookupA (s'.remoteKey 0) n = some ⟨n, v'⟩ ∧
    lookupA s'.files ⟨n, v'⟩ =
      some ⟨1, { br.file with flags := FlagDeleted, blocks := [], size := 0, version := v' }⟩ := by
  have hcond : (decide (fs.length = 0) || !goEquals s 0 fs) = true := by
    rcases hguard with h | h
    · simp [h]
    · simp [h]
  unfold ReplaceWithDelete at hrun
  rw [if_pos hcond] at hrun
  obtain ⟨ts, hts, hs'⟩ := Option.map_eq_some'.mp hrun
  -- split the local map around the entry for n
  obtain ⟨l1, l2, hsplit, hl1⟩ := lookupA_split (s.remoteKey 0) n ck hck
  have hl2 : ∀ p ∈ l2, p.1 ≠ n := by
    rw [hsplit, List.map_append] at hnodup
    have h2 := hnodup.of_append_right
    rw [List.map_cons] at h2
    have hnm := (List.nodup_cons.mp h2).1
    intro p hp hc
    exact hnm (List.mem_map.mpr ⟨p, hp, hc⟩)
  -- the synthesized tombstone for n
  have htomb : tombstoneOf s t 0 ck =
      some { br.file with flags := FlagDeleted, blocks := [], size := 0, version := v' } := by
    unfold tombstoneOf
    rw [hrec]
    show (Inc t 0 br.file.version).map _ = _
    rw [hinc]
    rfl
  have hmem : ¬ ((n, ck).2.name ∈ fs.map File.name) := by
    show ¬ (ck.name ∈ fs.map File.name)
    rw [hckn]
    intro hc
    obtain ⟨f, hf, hfn⟩ := List.mem_map.mp hc
    exact hnotfs f hf hfn
  -- decompose the produced tombstone list
  rw [hsplit, buildTombs_append] at hts
  cases h1 : buildTombs s t 0 (fs.map File.name) l1 with
  | none => rw [h1] at hts; exact absurd hts (by simp)
  | some ts1 =>
    rw [h1] at hts
    cases h2 : buildTombs s t 0 (fs.map File.name) l2 with
    | none =>
      rw [buildTombs_cons, if_neg hmem, htomb, h2] at hts
      exact absurd hts (by simp)
    | some ts2 =>
      rw [buildTombs_cons, if_neg hmem, htomb, h2] at hts
      have htseq : ts = ts1 ++
          ({ br.file with flags := FlagDeleted, blocks := [], size := 0, version := v' } :: ts2) := by
        have := Option.some.inj hts
        rw [← this]
      -- name/key side conditions for the other list parts
      have hts1 : ∀ g ∈ ts1, g.name ≠ n ∧ keyFor g ≠ (⟨n, v'⟩ : Key) := by
        intro g hg
        obtain ⟨p, hp, hpt⟩ := buildTombs_mem s t 0 _ l1 ts1 h1 g hg
        exact hothers p (by rw [hsplit]; exact List.mem_append_left _ hp) (hl1 p hp) g hpt
      have hts2 : ∀ g ∈ ts2, g.name ≠ n ∧ keyFor g ≠ (⟨n, v'⟩ : Key) := by
        intro g hg
        obtain ⟨p, hp, hpt⟩ := buildTombs_mem s t 0 _ l2 ts2 h2 g hg
        refine hothers p ?_ (hl2 p hp) g hpt
        rw [hsplit]
        exact List.mem_append_right _ (List.mem_cons_of_mem _ hp)
      have hfs' : ∀ g ∈ fs, g.name ≠ n ∧ keyFor g ≠ (⟨n, v'⟩ : Key) :=
        fun g hg => ⟨hnotfs g hg, hfreshfs g hg⟩
      -- the state the final update starts from
      have hbase_rk :
          (recomputeGlobal (clearPeer (decrementAll (bumpChanges 0 s) 0) 0)).remoteKey 0 = [] := by
        rw [recomputeGlobal_remoteKey]
        show (Function.update (decrementAll (bumpChanges 0 s) 0).remoteKey 0 []) 0 = []
        exact Function.update_same _ _ _
      have hbase_files :
          lookupA (recomputeGlobal (clearPeer (decrementAll (bumpChanges 0 s) 0) 0)).files
            (⟨n, v'⟩ : Key) = none := by
        rw [recomputeGlobal_files]
        show lookupA (decrementAll (bumpChanges 0 s) 0).files (⟨n, v'⟩ : Key) = none
        exact decrementAll_files_none (bumpChanges 0 s) 0 _ hfresh
      -- assemble the final state
      have hs'' : s' = update (updateFile 0
          (update (recomputeGlobal (clearPeer (decrementAll (bumpChanges 0 s) 0) 0)) 0 (fs ++ ts1))
          { br.file with flags := FlagDeleted, blocks := [], size := 0, version := v' }) 0 ts2 := by
        rw [← hs']
        unfold replace
        rw [htseq, ← List.append_assoc]
        rw [update_append]
        rfl
      have hT : (⟨n, v'⟩ : Key) =
          keyFor { br.file with flags := FlagDeleted, blocks := [], size := 0, version := v' } := by
        show (⟨n, v'⟩ : Key) = ⟨br.file.name, v'⟩
        rw [hrn]
      have hmid := update_preserves n (⟨n, v'⟩ : Key) (fs ++ ts1)
        (recomputeGlobal (clearPeer (decrementAll (bumpChanges 0 s) 0) 0))
        (fun g hg => by
          rcases List.mem_append.mp hg with hgf | hgt
          · exact hfs' g hgf
          · exact hts1 g hgt)
      have hmid_rk : lookupA ((update (recomputeGlobal (clearPeer (decrementAll (bumpChanges 0 s) 0) 0))
          0 (fs ++ ts1)).remoteKey 0) n = none := by
        rw [hmid.1, hbase_rk]
        rfl
      have hmid_files : lookupA (update (recomputeGlobal (clearPeer (decrementAll (bumpChanges 0 s) 0) 0))
          0 (fs ++ ts1)).files (⟨n, v'⟩ : Key) = none := by
        rw [hmid.2]
        exact hbase_files
      have hTname : ({ br.file with flags := FlagDeleted, blocks := [], size := 0, version := v' } : File).name = n :=
        hrn
      have htstep := updateFile_tombstone
        { br.file with flags := FlagDeleted, blocks := [], size := 0, version := v' }
        (update (recomputeGlobal (clearPeer (decrementAll (bumpChanges 0 s) 0) 0)) 0 (fs ++ ts1))
        (by rw [hTname]; exact hmid_rk)
        (by rw [← hT]; exact hmid_files)
      have hlast := update_preserves n (⟨n, v'⟩ : Key) ts2
        (updateFile 0
          (update (recomputeGlobal (clearPeer (decrementAll (bumpChanges 0 s) 0) 0)) 0 (fs ++ ts1))
          { br.file with flags := FlagDeleted, blocks := [], size := 0, version := v' })
        hts2
      rw [hs'']
      constructor
      · rw [hlast.1]
        have := htstep.1
        rw [hTname, ← hT] at this
        exact this
      · rw [hlast.2]
        have := htstep.2
        rw [← hT] at this
        exact this

/-- In the S3 state, every local entry other than b's produces a tombstone
named differently from b and keyed differently from (b, [2]). -/
theorem sS3_others :
    ∀ p ∈ sS3.remoteKey 0, p.1 ≠ "b" → ∀ tf, tombstoneOf sS3 0 0 p.2 = some tf →
      tf.name ≠ "b" ∧ keyFor tf ≠ (⟨"b", [2]⟩ : Key) := by
  have hlist : sS3.remoteKey 0 = [("a", ⟨"a", [1]⟩), ("b", ⟨"b", [1]⟩)] := by decide
  intro p hp hne tf htf
  rw [hlist] at hp
  rcases List.mem_cons.mp hp with rfl | hp'
  · have hta : tombstoneOf sS3 0 0 (⟨"a", [1]⟩ : Key) =
        some { (mkF "a" [1]) with flags := FlagDeleted, blocks := [], size := 0, version := [2] } := by
      decide
    rw [hta] at htf
    have := Option.some.inj htf
    rw [← this]
    exact ⟨by decide, by decide⟩
  · rcases List.mem_cons.mp hp' with rfl | hp''
    · exact absurd rfl hne
    · exact absurd hp'' (by simp)

/-- Witness for the amended C7: scenario S3.  Local holds a@[1] and b@[1];
`ReplaceWithDelete(local, [a@[1]])` with wall clock 0 leaves the local map
as {a@[1], b@[2]} and stores for b@[2] the tombstone with flags = Deleted,
no blocks and size 0. -/
theorem replaceWithDelete_tombstone_witness :
    (goEquals sS3 0 [mkF "a" [1]] = false ∧
     lookupA (sS3.remoteKey 0) "b" = some ⟨"b", [1]⟩ ∧
     lookupA sS3.files ⟨"b", [1]⟩ = some ⟨1, mkF "b" [1]⟩ ∧
     Inc 0 0 (mkF "b" [1]).version = some [2]) ∧
    (lookupA (((ReplaceWithDelete 0 0 [mkF "a" [1]] sS3).getD initSet).remoteKey 0) "b" =
       some ⟨"b", [2]⟩ ∧
     lookupA ((ReplaceWithDelete 0 0 [mkF "a" [1]] sS3).getD initSet).files ⟨"b", [2]⟩ =
       some ⟨1, { (mkF "b" [1]) with flags := FlagDeleted, blocks := [], size := 0, version := [2] }⟩) :=
  ⟨⟨by decide, by decide, by decide, by decide⟩,
   replaceWithDelete_tombstone sS3 0 [mkF "a" [1]] "b" ⟨"b", [1]⟩ ⟨1, mkF "b" [1]⟩ [2]
     ((ReplaceWithDelete 0 0 [mkF "a" [1]] sS3).getD initSet)
     (Or.inr (by decide)) (by decide) (by decide) (by decide) (by decide) (by decide)
     (by decide) (by decide) (by decide) (by decide) sS3_others rfl⟩

end SyncSpec
